import Mathlib

/-!
# Bootstrap chain (`bootstrap/bootstrapper/base.go`)

A shallow embedding of `baseBootstrapper` and of the collaborators it calls:
the time-range algebra (`xtime.Ranges`), the shard result accumulator
(`bootstrap.ShardResult`), the `Source` capability and the no-op terminal
bootstrapper.  `base.go` is embedded from its source text; the collaborators
are not part of the visible sources and are modelled from the specification.

Go interface values that may be `nil` are `Option`s: `none` is `nil`.
-/

namespace M3

/-! ## Time-range algebra (`xtime`) -/

/-- Modelled from the spec: `xtime.Range`, the half-open interval
`[start, stop)` over wall-clock time (the source of package `xtime` is
missing).  Instants are integers (nanoseconds). -/
structure Range where
  start : Int
  stop : Int
  deriving DecidableEq, Repr

/-- Modelled from the spec: membership of an instant in the half-open interval
`[start, stop)`. -/
def Range.contains (r : Range) (t : Int) : Bool :=
  decide (r.start ≤ t) && decide (t < r.stop)

/-- Modelled from the spec: a non-nil `xtime.Ranges` object, the collection of
the ranges it stores, in order. -/
abbrev RangeList := List Range

/-- Modelled from the spec: an `xtime.Ranges` interface value; `none` is the
Go `nil`. -/
abbrev Ranges := Option RangeList

/-- Modelled from the spec: the instants covered by a collection of ranges. -/
def RangeList.covers (l : RangeList) (t : Int) : Bool :=
  l.any (fun r => r.contains t)

/-- Modelled from the spec: the instants covered by a `Ranges` value; `nil`
covers nothing. -/
def Ranges.covers : Ranges → Int → Bool
  | none, _ => false
  | some l, t => RangeList.covers l t

/-- Modelled from the spec: `xtime.IsEmpty`, 4.1 "true iff the set contains
zero ranges"; the `nil` of the fast exit is an empty set too. -/
def IsEmpty : Ranges → Bool
  | none => true
  | some l => l.isEmpty

/-- Modelled from the spec: `xtime.NewRanges`, a fresh collection with no
ranges. -/
def NewRanges : RangeList := []

/-- Modelled from the spec: the portion of the stored range `x` not covered by
`r`: the piece of `x` before `r` and the piece of `x` after `r`, each kept
when it is a non-empty interval.  A partial overlap splits or trims `x`, a
full cover deletes it. -/
def Range.subtract (x r : Range) : RangeList :=
  (if x.start < min x.stop r.start then [⟨x.start, min x.stop r.start⟩] else []) ++
  (if max x.start r.stop < x.stop then [⟨max x.start r.stop, x.stop⟩] else [])

/-- Modelled from the spec: removal of one range from every stored range. -/
def RangeList.removeRange (l : RangeList) (r : Range) : RangeList :=
  l.flatMap (fun x => x.subtract r)

/-- Modelled from the spec: `Ranges.RemoveRanges`, 4.1 "returns the portion of
set not covered by toRemove".  The receiver is not altered; removing an empty
(or `nil`) set returns the receiver's ranges. -/
def RangeList.RemoveRanges (tr : RangeList) (other : Ranges) : RangeList :=
  (other.getD []).foldl RangeList.removeRange tr

/-- Modelled from the spec: insertion of one range into a sorted, coalesced
collection: ranges strictly before or after `r` are kept, ranges that overlap
or touch `r` are coalesced with it. -/
def RangeList.addRange : RangeList → Range → RangeList
  | [], r => [r]
  | x :: xs, r =>
    if r.stop < x.start then r :: x :: xs
    else if x.stop < r.start then x :: RangeList.addRange xs r
    else RangeList.addRange xs ⟨min r.start x.start, max r.stop x.stop⟩

/-- Modelled from the spec: `Ranges.AddRanges`, 4.1 "returns the normalized
union of the two sets; overlapping or adjacent ranges coalesce into one";
adding an empty (or `nil`) set is the identity. -/
def RangeList.AddRanges (tr : RangeList) (other : Ranges) : RangeList :=
  (other.getD []).foldl RangeList.addRange tr

/-- Modelled from the spec: the invariant of a Time Range Set (3), for a set
of non-empty ranges: the ranges are sorted and no two of them overlap or
touch. -/
def RangeList.Normalized (l : RangeList) : Prop :=
  (∀ x ∈ l, x.start < x.stop) ∧ l.Pairwise (fun a b => a.stop < b.start)

instance RangeList.decidableNormalized (l : RangeList) :
    Decidable (RangeList.Normalized l) := by
  unfold RangeList.Normalized
  infer_instance

/-! ## Shard results (`bootstrap.ShardResult`) -/

/-- Modelled from the spec: `m3db.DatabaseOptions`, the read-only DB-wide
configuration handle, which the chain passes on and never inspects. -/
structure DatabaseOptions where
  id : Nat
  deriving DecidableEq, Repr

/-- Modelled from the spec: the data recovered for one series, a sequence of
encoded blocks. -/
abbrev SeriesBlocks := List Nat

/-- Modelled from the spec: `m3db.ShardResult`, "a mapping from series identity
to the time-series data recovered for that series", built from the node-wide
options. -/
structure ShardResult where
  opts : DatabaseOptions
  series : String → Option SeriesBlocks

/-- Modelled from the spec: `bootstrap.NewShardResult`, 4.2 "starts with zero
series". -/
def NewShardResult (opts : DatabaseOptions) : ShardResult :=
  ⟨opts, fun _ => none⟩

/-- Modelled from the spec: `ShardResult.AddResult`, 4.2: merges in all series
of `other`; a series present on both sides has its data combined, not
overwritten; a `nil` result contributes no series. -/
def ShardResult.AddResult (sr : ShardResult) : Option ShardResult → ShardResult
  | none => sr
  | some other =>
    ⟨sr.opts, fun id =>
      match sr.series id, other.series id with
      | some a, some b => some (a ++ b)
      | some a, none => some a
      | none, some b => some b
      | none, none => none⟩

/-- Modelled from the spec: the series content of a possibly-`nil` result; a
`nil` result has no series. -/
def seriesOf : Option ShardResult → String → Option SeriesBlocks
  | none, _ => none
  | some r, id => r.series id

/-! ## Sources and bootstrappers -/

/-- Modelled from the spec: `m3db.Source`, the capability of one bootstrap
strategy (3, 6): `GetAvailability` and `ReadData`, stateless from the chain
point of view, and the configured name that 4.4 speaks of. -/
structure Source where
  name : String
  GetAvailability : Nat → Ranges → Ranges
  ReadData : Nat → Ranges → Option ShardResult × Ranges

/-- Modelled from the spec: the `m3db.Bootstrapper` capability (3), whose
interface declaration is missing.  Its implementers are the no-op terminal
`defaultNoOpBootstrapper`, the chain node `baseBootstrapper` with its three
fields `s`, `dbOpts`, `next` (base.go:36-40), and any other implementation of
the interface, given by what its `Bootstrap` returns. -/
inductive Bootstrapper where
  | noOp : Bootstrapper
  | base (s : Source) (dbOpts : DatabaseOptions) (next : Bootstrapper) : Bootstrapper
  | other (run : Nat → Ranges → Option ShardResult × Ranges) : Bootstrapper

/-- The operations a chain node invokes on its collaborators. -/
inductive Op where
  | getAvailability
  | readData
  | nextBootstrap
  deriving DecidableEq, Repr

/-- One invocation made while a `Bootstrap` call runs: `depth` 0 is the node
the call was made on, `depth` k its k-th successor; `getAvailability` and
`readData` are calls of that node on its Source, `nextBootstrap` its call of
`next.Bootstrap`. -/
structure Call where
  depth : Nat
  op : Op
  shard : Nat
  ranges : Ranges
  deriving DecidableEq, Repr

/-- The same invocation seen from the predecessor node. -/
def Call.deeper (c : Call) : Call :=
  ⟨c.depth + 1, c.op, c.shard, c.ranges⟩

/-- What a `Bootstrap` call yields: the two returned values and the
invocations it made. -/
structure Outcome where
  result : Option ShardResult
  unfulfilled : Ranges
  calls : List Call

/-- `baseBootstrapperName` (base.go:31-33). -/
def baseBootstrapperName : String := "base"

/-- `NewBaseBootstrapper` (base.go:43-53): a `nil` next is replaced by the
no-op terminal. -/
def NewBaseBootstrapper (s : Source) (dbOpts : DatabaseOptions)
    (next : Option Bootstrapper) : Bootstrapper :=
  let bs := match next with
    | none => Bootstrapper.noOp
    | some n => n
  Bootstrapper.base s dbOpts bs

/-- Modelled from the spec: `Bootstrap` of the no-op terminal
`defaultNoOpBootstrapper` (4.3), whose source is missing: it fulfills nothing
and returns `(nil, targetRanges)`. -/
def noOpBootstrap (_shard : Nat) (targetRanges : Ranges) : Option ShardResult × Ranges :=
  (none, targetRanges)

/-- `baseBootstrapper.mergeResults` (base.go:92-98): a fresh accumulator into
which every argument is folded in order. -/
def mergeResults (dbOpts : DatabaseOptions) (results : List (Option ShardResult)) :
    ShardResult :=
  results.foldl (fun final result => final.AddResult result) (NewShardResult dbOpts)

/-- `mergeTimeRanges` (base.go:100-106). -/
def mergeTimeRanges (ranges : List Ranges) : Ranges :=
  some (ranges.foldl (fun final tr => final.AddRanges tr) NewRanges)

/-- `Bootstrap` of a `m3db.Bootstrapper`.  The `base` case is
`baseBootstrapper.Bootstrap` (base.go:56-90).  The delegation of
`remainingRanges` runs in a goroutine joined before the results are used
(base.go:70-77); Sources being functions here, the returned values do not
depend on the interleaving, and `calls` lists the delegation before the read,
which is one of the possible orders.  The two first branches of the `base`
case are the guard `xtime.IsEmpty(targetRanges)` (base.go:57-59): a nil
collection, or one without ranges. -/
def Bootstrapper.Bootstrap : Bootstrapper → Nat → Ranges → Outcome
  | .noOp, shard, targetRanges =>
    ⟨(noOpBootstrap shard targetRanges).1, (noOpBootstrap shard targetRanges).2, []⟩
  | .other run, shard, targetRanges =>
    ⟨(run shard targetRanges).1, (run shard targetRanges).2, []⟩
  | .base s dbOpts next, shard, targetRanges =>
    match targetRanges with
    | none => ⟨none, none, []⟩
    | some tr =>
      if tr.isEmpty then ⟨none, none, []⟩
      else
        let availableRanges := s.GetAvailability shard targetRanges
        let remainingRanges : Ranges := some (tr.RemoveRanges availableRanges)
        let nextOut := next.Bootstrap shard remainingRanges
        let cur := s.ReadData shard availableRanges
        let mergedResults := mergeResults dbOpts [cur.1, nextOut.result]
        let calls :=
          [⟨0, Op.getAvailability, shard, targetRanges⟩,
            ⟨0, Op.nextBootstrap, shard, remainingRanges⟩]
            ++ nextOut.calls.map Call.deeper
            ++ [⟨0, Op.readData, shard, availableRanges⟩]
        if !IsEmpty cur.2 then
          let retry := next.Bootstrap shard cur.2
          ⟨some (mergeResults dbOpts [some mergedResults, retry.result]),
            mergeTimeRanges [retry.unfulfilled, nextOut.unfulfilled],
            calls ++ [⟨0, Op.nextBootstrap, shard, cur.2⟩] ++ retry.calls.map Call.deeper⟩
        else
          ⟨some mergedResults, mergeTimeRanges [cur.2, nextOut.unfulfilled], calls⟩

/-- `baseBootstrapper.String` (base.go:108-111), as a function of the three
fields of the node. -/
def baseBootstrapper.String (_s : Source) (_dbOpts : DatabaseOptions)
    (_next : Bootstrapper) : String :=
  baseBootstrapperName

/-- A chain built back-to-front from a list of Sources with
`NewBaseBootstrapper`, ending in the no-op terminal. -/
def chain (dbOpts : DatabaseOptions) : List Source → Bootstrapper
  | [] => Bootstrapper.noOp
  | s :: rest => NewBaseBootstrapper s dbOpts (some (chain dbOpts rest))

/-! ## The unfulfilled accounting in the words of the specification -/

/-- Part (i) of the accounting of 4.4 step 6: the unfulfilled set of the
original delegation `next.Bootstrap(shard, targetRanges minus available)`. -/
def delegatedUnfulfilled (s : Source) (next : Bootstrapper) (shard : Nat)
    (tr : RangeList) : Ranges :=
  (next.Bootstrap shard (some (tr.RemoveRanges (s.GetAvailability shard (some tr))))).unfulfilled

/-- Part (ii) of the accounting of 4.4 step 6: the unfulfilled set of the
fallback call `next.Bootstrap(shard, readUnfulfilled)` when the read left
something, the empty set otherwise. -/
def fallbackUnfulfilled (s : Source) (next : Bootstrapper) (shard : Nat)
    (tr : RangeList) : Ranges :=
  if IsEmpty (s.ReadData shard (s.GetAvailability shard (some tr))).2 then some NewRanges
  else (next.Bootstrap shard (s.ReadData shard (s.GetAvailability shard (some tr))).2).unfulfilled

/-- The calls a node makes itself, those of its successors left out. -/
def ownCalls (calls : List Call) : List Call :=
  calls.filter (fun c => c.depth == 0)

/-- The Source of the node `depth` links down from a bootstrapper, when that
link is a chain node. -/
def sourceAt : Bootstrapper → Nat → Option Source
  | .base s _ _, 0 => some s
  | .base _ _ next, depth + 1 => sourceAt next depth
  | _, _ => none

/-! ## Sample collaborators -/

/-- Sample DB-wide options. -/
def sampleOpts : DatabaseOptions := ⟨1⟩

/-- A shard result holding the single series `cpu`. -/
def cpuResult : ShardResult :=
  ⟨sampleOpts, fun id => if id = "cpu" then some [1, 2] else none⟩

/-- A shard result holding the single series `mem`. -/
def memResult : ShardResult :=
  ⟨sampleOpts, fun id => if id = "mem" then some [3] else none⟩

/-- A Source that reports every requested range available and reads all of it. -/
def fullSource : Source :=
  ⟨"filesystem", fun _ req => req, fun _ _ => (some cpuResult, none)⟩

/-- A second Source that reports every requested range available and reads all
of it. -/
def peerSource : Source :=
  ⟨"peers", fun _ req => req, fun _ _ => (some memResult, none)⟩

/-- A Source that reports nothing available and reads nothing. -/
def idleSource : Source :=
  ⟨"commitlog", fun _ _ => none, fun _ _ => (none, none)⟩

/-- A Source that reports every requested range available and whose read
reports `[100, 200)` unfulfilled whatever it was asked to read. -/
def strayingSource : Source :=
  ⟨"snapshot", fun _ req => req, fun _ _ => (none, some [⟨100, 200⟩])⟩

/-- A Source that reports nothing available, and whose read of the empty set
still yields a series and a leftover range. -/
def eagerSource : Source :=
  ⟨"cache", fun _ _ => none, fun _ _ => (some cpuResult, some [⟨100, 200⟩])⟩

/-- A Source that advertises every requested range but whose read delivers
`[0, 5)` only: what it is asked to read outside `[0, 5)` is left unfulfilled. -/
def partialSource : Source :=
  ⟨"flushfiles", fun _ req => req,
    fun _ req => (some cpuResult, some ((req.getD []).RemoveRanges (some [⟨0, 5⟩])))⟩

/-- A Source that can supply everything except `hole`: it reports the
requested ranges outside `hole` as available and reads them with no leftover. -/
def holeSource (name : String) (hole : Ranges) : Source :=
  ⟨name, fun _ req => some ((req.getD []).RemoveRanges hole), fun _ _ => (none, none)⟩

/-! ## Lemmas on the time-range algebra -/

theorem Range.contains_iff (r : Range) (t : Int) :
    r.contains t = true ↔ r.start ≤ t ∧ t < r.stop := by
  simp [Range.contains]

theorem RangeList.covers_iff (l : RangeList) (t : Int) :
    l.covers t = true ↔ ∃ r ∈ l, r.start ≤ t ∧ t < r.stop := by
  simp [RangeList.covers, Range.contains]

theorem RangeList.covers_nil (t : Int) : RangeList.covers [] t = false := rfl

theorem RangeList.covers_cons (x : Range) (l : RangeList) (t : Int) :
    RangeList.covers (x :: l) t = (x.contains t || RangeList.covers l t) := by
  simp [RangeList.covers]

theorem RangeList.covers_append (a b : RangeList) (t : Int) :
    RangeList.covers (a ++ b) t = (RangeList.covers a t || RangeList.covers b t) := by
  simp [RangeList.covers]

theorem Range.subtract_covers (x r : Range) (t : Int) :
    RangeList.covers (x.subtract r) t = (x.contains t && !r.contains t) := by
  rw [Bool.eq_iff_iff]
  simp only [Range.subtract, RangeList.covers_append, Bool.or_eq_true, Bool.and_eq_true,
    Bool.not_eq_true', RangeList.covers_iff, ← Bool.not_eq_true, Range.contains_iff]
  by_cases h1 : x.start < min x.stop r.start <;> by_cases h2 : max x.start r.stop < x.stop <;>
    simp only [h1, h2, if_true, if_false, List.mem_singleton, List.not_mem_nil, exists_eq_left,
      false_and, exists_false, or_false, false_or, false_iff] <;>
    omega

theorem Range.subtract_nonempty (x r y : Range) (h : y ∈ x.subtract r) : y.start < y.stop := by
  simp only [Range.subtract, List.mem_append] at h
  rcases h with h | h
  · split at h
    · simp only [List.mem_singleton] at h; subst h; assumption
    · simp at h
  · split at h
    · simp only [List.mem_singleton] at h; subst h; assumption
    · simp at h

theorem RangeList.removeRange_covers (l : RangeList) (r : Range) (t : Int) :
    RangeList.covers (l.removeRange r) t = (RangeList.covers l t && !r.contains t) := by
  induction l with
  | nil => rfl
  | cons x xs ih =>
    have hcons : RangeList.removeRange (x :: xs) r
        = x.subtract r ++ RangeList.removeRange xs r := by
      simp [RangeList.removeRange]
    rw [hcons, RangeList.covers_append, RangeList.covers_cons, ih, Range.subtract_covers]
    cases x.contains t <;> cases r.contains t <;> cases RangeList.covers xs t <;> rfl

theorem RangeList.removeRange_nonempty (l : RangeList) (r y : Range)
    (h : y ∈ l.removeRange r) : y.start < y.stop := by
  simp only [RangeList.removeRange, List.mem_flatMap] at h
  obtain ⟨x, _, hx⟩ := h
  exact Range.subtract_nonempty x r y hx

theorem RangeList.foldl_removeRange_covers (rs : List Range) (l : RangeList) (t : Int) :
    RangeList.covers (rs.foldl RangeList.removeRange l) t
      = (RangeList.covers l t && !RangeList.covers rs t) := by
  induction rs generalizing l with
  | nil => simp [RangeList.covers_nil]
  | cons r rs ih =>
    simp only [List.foldl_cons, ih, RangeList.removeRange_covers, RangeList.covers_cons]
    cases RangeList.covers l t <;> cases r.contains t <;> cases RangeList.covers rs t <;> rfl

theorem RangeList.RemoveRanges_covers (tr : RangeList) (other : Ranges) (t : Int) :
    RangeList.covers (tr.RemoveRanges other) t
      = (RangeList.covers tr t && !Ranges.covers other t) := by
  cases other with
  | none => simp [RangeList.RemoveRanges, Ranges.covers]
  | some l => simp [RangeList.RemoveRanges, Ranges.covers, RangeList.foldl_removeRange_covers]

theorem RangeList.RemoveRanges_of_isEmpty (tr : RangeList) (other : Ranges)
    (h : IsEmpty other = true) : tr.RemoveRanges other = tr := by
  cases other with
  | none => rfl
  | some l =>
    cases l with
    | nil => rfl
    | cons r rs => simp [IsEmpty] at h

theorem RangeList.foldl_removeRange_nonempty (rs : List Range) (l : RangeList)
    (hl : ∀ y ∈ l, y.start < y.stop) :
    ∀ y ∈ rs.foldl RangeList.removeRange l, y.start < y.stop := by
  induction rs generalizing l with
  | nil => simpa using hl
  | cons r rs ih =>
    simp only [List.foldl_cons]
    exact ih _ (fun y hy => RangeList.removeRange_nonempty l r y hy)

theorem RangeList.eq_nil_of_covers_false (l : RangeList)
    (hne : ∀ y ∈ l, y.start < y.stop) (hc : ∀ t, RangeList.covers l t = false) : l = [] := by
  cases l with
  | nil => rfl
  | cons y ys =>
    exfalso
    have hy := hne y (List.mem_cons_self y ys)
    have hcov : RangeList.covers (y :: ys) y.start = true := by
      rw [RangeList.covers_iff]
      exact ⟨y, List.mem_cons_self y ys, le_refl _, hy⟩
    rw [hc y.start] at hcov
    exact Bool.false_ne_true hcov

/-- Removing a collection from itself leaves no range at all. -/
theorem RangeList.RemoveRanges_self (tr : RangeList) : tr.RemoveRanges (some tr) = [] := by
  cases tr with
  | nil => rfl
  | cons r rs =>
    apply RangeList.eq_nil_of_covers_false
    · simp only [RangeList.RemoveRanges, Option.getD_some, List.foldl_cons]
      exact RangeList.foldl_removeRange_nonempty rs _
        (fun y hy => RangeList.removeRange_nonempty (r :: rs) r y hy)
    · intro t
      rw [RangeList.RemoveRanges_covers]
      simp only [Ranges.covers]
      cases RangeList.covers (r :: rs) t <;> rfl

theorem RangeList.addRange_covers (l : RangeList) (r : Range) (t : Int) :
    RangeList.covers (l.addRange r) t = (RangeList.covers l t || r.contains t) := by
  induction l generalizing r with
  | nil => simp [RangeList.addRange, RangeList.covers]
  | cons x xs ih =>
    unfold RangeList.addRange
    by_cases h1 : r.stop < x.start
    · simp only [h1, if_true, RangeList.covers_cons]
      cases r.contains t <;> cases x.contains t <;> cases RangeList.covers xs t <;> rfl
    · by_cases h2 : x.stop < r.start
      · simp only [h1, h2, if_true, if_false, RangeList.covers_cons, ih]
        cases r.contains t <;> cases x.contains t <;> cases RangeList.covers xs t <;> rfl
      · simp only [h1, h2, if_false, RangeList.covers_cons, ih]
        have hm : Range.contains ⟨min r.start x.start, max r.stop x.stop⟩ t
            = (x.contains t || r.contains t) := by
          rw [Bool.eq_iff_iff]
          simp only [Bool.or_eq_true, Range.contains_iff]
          omega
        rw [hm]
        cases r.contains t <;> cases x.contains t <;> cases RangeList.covers xs t <;> rfl

theorem RangeList.addRange_ne_nil (l : RangeList) (r : Range) : l.addRange r ≠ [] := by
  induction l generalizing r with
  | nil => simp [RangeList.addRange]
  | cons x xs ih =>
    unfold RangeList.addRange
    split
    · simp
    · split
      · simp
      · exact ih _

theorem RangeList.foldl_addRange_covers (rs : List Range) (l : RangeList) (t : Int) :
    RangeList.covers (rs.foldl RangeList.addRange l) t
      = (RangeList.covers l t || RangeList.covers rs t) := by
  induction rs generalizing l with
  | nil => simp [RangeList.covers_nil]
  | cons r rs ih =>
    simp only [List.foldl_cons, ih, RangeList.addRange_covers, RangeList.covers_cons]
    cases RangeList.covers l t <;> cases r.contains t <;> cases RangeList.covers rs t <;> rfl

theorem RangeList.foldl_addRange_isEmpty (rs : List Range) (l : RangeList) :
    (rs.foldl RangeList.addRange l).isEmpty = (l.isEmpty && rs.isEmpty) := by
  induction rs generalizing l with
  | nil => simp
  | cons r rs ih =>
    simp only [List.foldl_cons, ih, List.isEmpty_cons, Bool.and_false, Bool.and_eq_false_imp]
    have := RangeList.addRange_ne_nil l r
    cases hl : l.addRange r with
    | nil => exact absurd hl this
    | cons _ _ => simp

theorem RangeList.AddRanges_covers (tr : RangeList) (other : Ranges) (t : Int) :
    RangeList.covers (tr.AddRanges other) t
      = (RangeList.covers tr t || Ranges.covers other t) := by
  cases other with
  | none => simp [RangeList.AddRanges, Ranges.covers]
  | some l => simp [RangeList.AddRanges, Ranges.covers, RangeList.foldl_addRange_covers]

theorem RangeList.AddRanges_of_isEmpty (tr : RangeList) (other : Ranges)
    (h : IsEmpty other = true) : tr.AddRanges other = tr := by
  cases other with
  | none => rfl
  | some l =>
    cases l with
    | nil => rfl
    | cons r rs => simp [IsEmpty] at h

theorem RangeList.AddRanges_isEmpty (tr : RangeList) (other : Ranges) :
    (tr.AddRanges other).isEmpty = (tr.isEmpty && IsEmpty other) := by
  cases other with
  | none => simp [RangeList.AddRanges, IsEmpty]
  | some l => simp [RangeList.AddRanges, IsEmpty, RangeList.foldl_addRange_isEmpty]

theorem mergeTimeRanges_pair (a b : Ranges) :
    mergeTimeRanges [a, b] = some ((NewRanges.AddRanges a).AddRanges b) := rfl

theorem mergeTimeRanges_pair_covers (a b : Ranges) (t : Int) :
    (mergeTimeRanges [a, b]).covers t = (a.covers t || b.covers t) := by
  simp [mergeTimeRanges_pair, Ranges.covers, RangeList.AddRanges_covers, NewRanges,
    RangeList.covers_nil]

theorem mergeTimeRanges_pair_isEmpty (a b : Ranges) :
    IsEmpty (mergeTimeRanges [a, b]) = (IsEmpty a && IsEmpty b) := by
  simp [mergeTimeRanges_pair, IsEmpty, RangeList.AddRanges_isEmpty, NewRanges]

theorem Ranges.covers_of_isEmpty (a : Ranges) (h : IsEmpty a = true) (t : Int) :
    a.covers t = false := by
  cases a with
  | none => rfl
  | some l =>
    cases l with
    | nil => rfl
    | cons r rs => simp [IsEmpty] at h

theorem Ranges.covers_some (l : RangeList) (t : Int) :
    Ranges.covers (some l) t = RangeList.covers l t := rfl

theorem Ranges.covers_getD (req : Ranges) (t : Int) :
    RangeList.covers (req.getD []) t = Ranges.covers req t := by
  cases req <;> rfl

theorem IsEmpty_some_eq_false_or (tr : RangeList) :
    IsEmpty (some tr) = true ∨ IsEmpty (some tr) = false := by
  cases IsEmpty (some tr)
  · exact Or.inr rfl
  · exact Or.inl rfl

theorem Ranges.isEmpty_of_covers_false (a : Ranges)
    (hne : ∀ r ∈ a.getD [], r.start < r.stop) (hc : ∀ t, a.covers t = false) :
    IsEmpty a = true := by
  cases a with
  | none => rfl
  | some l =>
    have : l = [] := RangeList.eq_nil_of_covers_false l hne hc
    subst this
    rfl

/-! ## Normalized range collections -/

theorem RangeList.Normalized.tail {x : Range} {l : RangeList}
    (h : RangeList.Normalized (x :: l)) : RangeList.Normalized l :=
  ⟨fun y hy => h.1 y (List.mem_cons_of_mem _ hy), (List.pairwise_cons.mp h.2).2⟩

theorem RangeList.Normalized.head_lt {x : Range} {l : RangeList}
    (h : RangeList.Normalized (x :: l)) : x.start < x.stop :=
  h.1 x (List.mem_cons_self _ _)

theorem RangeList.Normalized.head_before {x : Range} {l : RangeList}
    (h : RangeList.Normalized (x :: l)) : ∀ y ∈ l, x.stop < y.start :=
  (List.pairwise_cons.mp h.2).1

theorem RangeList.Normalized.covers_tail {x : Range} {l : RangeList}
    (h : RangeList.Normalized (x :: l)) (t : Int) :
    RangeList.covers l t = (RangeList.covers (x :: l) t && !x.contains t) := by
  rw [RangeList.covers_cons]
  cases hc : RangeList.covers l t
  · cases x.contains t <;> rfl
  · rw [RangeList.covers_iff] at hc
    obtain ⟨y, hy, h1, _⟩ := hc
    have hb := h.head_before y hy
    have hx : x.contains t = false := by
      rw [← Bool.not_eq_true, Range.contains_iff]
      omega
    rw [hx]; rfl

theorem RangeList.Normalized.start_le {x : Range} {l : RangeList}
    (h : RangeList.Normalized (x :: l)) (t : Int)
    (hc : RangeList.covers (x :: l) t = true) : x.start ≤ t := by
  rw [RangeList.covers_iff] at hc
  obtain ⟨y, hy, h1, _⟩ := hc
  rcases List.mem_cons.mp hy with rfl | hy
  · exact h1
  · have := h.head_before y hy
    have := h.head_lt
    omega

/-- Two normalized collections covering the same instants are the same
collection. -/
theorem RangeList.Normalized.eq_of_covers {a b : RangeList}
    (ha : RangeList.Normalized a) (hb : RangeList.Normalized b)
    (h : ∀ t, RangeList.covers a t = RangeList.covers b t) : a = b := by
  induction a generalizing b with
  | nil =>
    exact (RangeList.eq_nil_of_covers_false b hb.1 (fun t => by rw [← h t]; rfl)).symm
  | cons x as ih =>
    cases b with
    | nil => exact RangeList.eq_nil_of_covers_false (x :: as) ha.1 (fun t => by rw [h t]; rfl)
    | cons y bs =>
      have hx := ha.head_lt
      have hy := hb.head_lt
      have cx : RangeList.covers (x :: as) x.start = true := by
        rw [RangeList.covers_iff]; exact ⟨x, List.mem_cons_self _ _, le_refl _, hx⟩
      have cy : RangeList.covers (y :: bs) y.start = true := by
        rw [RangeList.covers_iff]; exact ⟨y, List.mem_cons_self _ _, le_refl _, hy⟩
      have h1 : y.start ≤ x.start := hb.start_le _ (by rw [← h]; exact cx)
      have h2 : x.start ≤ y.start := ha.start_le _ (by rw [h]; exact cy)
      have hstop : ∀ {x y : Range} {as bs : RangeList}, RangeList.Normalized (x :: as) →
          RangeList.Normalized (y :: bs) → x.start = y.start →
          (∀ t, RangeList.covers (x :: as) t = RangeList.covers (y :: bs) t) →
          ¬ x.stop < y.stop := by
        intro x y as bs ha hb hs h hlt
        have hx := ha.head_lt
        have c : RangeList.covers (x :: as) x.stop = true := by
          rw [h, RangeList.covers_iff]
          exact ⟨y, List.mem_cons_self _ _, by omega, hlt⟩
        rw [RangeList.covers_iff] at c
        obtain ⟨z, hz, hz1, hz2⟩ := c
        rcases List.mem_cons.mp hz with rfl | hz
        · omega
        · have := ha.head_before z hz
          omega
      have h3 := hstop ha hb (le_antisymm h2 h1) h
      have h4 := hstop hb ha (le_antisymm h1 h2) (fun t => (h t).symm)
      have hxy : x = y := by
        cases x; cases y
        simp only [Range.mk.injEq] at *
        omega
      subst hxy
      rw [ih ha.tail hb.tail (fun t => by rw [ha.covers_tail, hb.covers_tail, h t])]

theorem RangeList.addRange_after (l : RangeList) (r : Range)
    (hl : ∀ x ∈ l, x.start < x.stop) (hr : r.start < r.stop)
    (h : ∀ x ∈ l, x.stop < r.start) : l.addRange r = l ++ [r] := by
  induction l with
  | nil => rfl
  | cons x xs ih =>
    have h1 := hl x (List.mem_cons_self _ _)
    have h2 := h x (List.mem_cons_self _ _)
    unfold RangeList.addRange
    rw [if_neg (by omega), if_pos h2,
      ih (fun y hy => hl y (List.mem_cons_of_mem _ hy))
        (fun y hy => h y (List.mem_cons_of_mem _ hy))]
    rfl

theorem RangeList.foldl_addRange_normalized (l acc : RangeList)
    (h : RangeList.Normalized (acc ++ l)) :
    l.foldl RangeList.addRange acc = acc ++ l := by
  induction l generalizing acc with
  | nil => simp
  | cons r rs ih =>
    have hall := h.1
    have hpw := List.pairwise_append.mp h.2
    simp only [List.foldl_cons]
    rw [RangeList.addRange_after acc r
      (fun x hx => hall x (List.mem_append_left _ hx))
      (hall r (List.mem_append_right _ (List.mem_cons_self _ _)))
      (fun x hx => hpw.2.2 x hx r (List.mem_cons_self _ _))]
    have h2 : RangeList.Normalized ((acc ++ [r]) ++ rs) := by
      rw [List.append_assoc]; exact h
    rw [ih _ h2, List.append_assoc]
    rfl

/-- Adding a normalized collection to a fresh one gives that collection. -/
theorem RangeList.NewRanges_AddRanges (l : RangeList) (h : RangeList.Normalized l) :
    NewRanges.AddRanges (some l) = l := by
  have := RangeList.foldl_addRange_normalized l [] (by simpa using h)
  simpa [RangeList.AddRanges, NewRanges] using this

theorem Range.subtract_within (x r y : Range) (h : y ∈ x.subtract r) :
    x.start ≤ y.start ∧ y.stop ≤ x.stop := by
  simp only [Range.subtract, List.mem_append] at h
  rcases h with h | h
  · split at h
    · simp only [List.mem_singleton] at h; subst h; simp only; omega
    · simp at h
  · split at h
    · simp only [List.mem_singleton] at h; subst h; simp only; omega
    · simp at h

theorem Range.subtract_pairwise (x r : Range) (hr : r.start < r.stop) :
    (x.subtract r).Pairwise (fun a b => a.stop < b.start) := by
  unfold Range.subtract
  by_cases h1 : x.start < min x.stop r.start <;> by_cases h2 : max x.start r.stop < x.stop <;>
    simp only [h1, h2, if_true, if_false, List.append_nil, List.nil_append,
      List.singleton_append, List.pairwise_cons, List.Pairwise.nil, List.mem_singleton,
      List.not_mem_nil, forall_eq, and_true, false_imp_iff, implies_true]
  omega

theorem RangeList.removeRange_within (l : RangeList) (r y : Range)
    (h : y ∈ l.removeRange r) : ∃ x ∈ l, x.start ≤ y.start ∧ y.stop ≤ x.stop := by
  simp only [RangeList.removeRange, List.mem_flatMap] at h
  obtain ⟨x, hx, hy⟩ := h
  exact ⟨x, hx, Range.subtract_within x r y hy⟩

theorem RangeList.removeRange_normalized (l : RangeList) (r : Range)
    (hl : RangeList.Normalized l) (hr : r.start < r.stop) :
    RangeList.Normalized (l.removeRange r) := by
  refine ⟨fun y hy => RangeList.removeRange_nonempty l r y hy, ?_⟩
  induction l with
  | nil => simp [RangeList.removeRange]
  | cons x xs ih =>
    have hcons : RangeList.removeRange (x :: xs) r
        = x.subtract r ++ RangeList.removeRange xs r := by
      simp [RangeList.removeRange]
    rw [hcons, List.pairwise_append]
    refine ⟨Range.subtract_pairwise x r hr, ih hl.tail, ?_⟩
    intro a ha b hb
    obtain ⟨z, hz, hz1, _⟩ := RangeList.removeRange_within xs r b hb
    have := (Range.subtract_within x r a ha).2
    have := hl.head_before z hz
    omega

theorem RangeList.RemoveRanges_normalized (tr : RangeList) (other : Ranges)
    (htr : RangeList.Normalized tr) (ho : ∀ r ∈ other.getD [], r.start < r.stop) :
    RangeList.Normalized (tr.RemoveRanges other) := by
  unfold RangeList.RemoveRanges
  generalize other.getD [] = rs at ho
  induction rs generalizing tr with
  | nil => exact htr
  | cons r rs ih =>
    simp only [List.foldl_cons]
    exact ih _ (RangeList.removeRange_normalized tr r htr (ho r (List.mem_cons_self _ _)))
      (fun y hy => ho y (List.mem_cons_of_mem _ hy))

/-! ## Lemmas on shard results -/

theorem NewShardResult_AddResult (o : DatabaseOptions) (r : Option ShardResult) :
    seriesOf (some ((NewShardResult o).AddResult r)) = seriesOf r := by
  funext id
  cases r with
  | none => rfl
  | some d =>
    simp only [seriesOf, ShardResult.AddResult, NewShardResult]
    cases d.series id <;> rfl

theorem AddResult_opts (sr : ShardResult) (r : Option ShardResult) :
    (sr.AddResult r).opts = sr.opts := by
  cases r <;> rfl

theorem AddResult_series_of_none (sr : ShardResult) (r : Option ShardResult)
    (h : seriesOf r = fun _ => none) : (sr.AddResult r).series = sr.series := by
  cases r with
  | none => rfl
  | some d =>
    funext id
    have hd : d.series id = none := congrFun h id
    simp only [ShardResult.AddResult, hd]
    cases sr.series id <;> rfl

theorem mergeResults_opts (o : DatabaseOptions) (rs : List (Option ShardResult)) :
    (mergeResults o rs).opts = o := by
  unfold mergeResults
  have key : ∀ (l : List (Option ShardResult)) (acc : ShardResult),
      (l.foldl (fun final result => final.AddResult result) acc).opts = acc.opts := by
    intro l
    induction l with
    | nil => intro acc; rfl
    | cons r l ih => intro acc; simp only [List.foldl_cons, ih, AddResult_opts]
  rw [key]; rfl

/-- Folding a merged result into a fresh accumulator gives that merged result
back: the nested merge of base.go:79 and base.go:85 is the flat merge. -/
theorem mergeResults_nested (o : DatabaseOptions) (a b c : Option ShardResult) :
    mergeResults o [some (mergeResults o [a, b]), c] = mergeResults o [a, b, c] := by
  have h : (NewShardResult o).AddResult (some (mergeResults o [a, b]))
      = mergeResults o [a, b] := by
    have ho := mergeResults_opts o [a, b]
    cases hm : mergeResults o [a, b] with
    | mk mo ms =>
      rw [hm] at ho
      simp only at ho
      subst ho
      simp only [ShardResult.AddResult, NewShardResult, ShardResult.mk.injEq, true_and]
      funext id
      cases ms id <;> rfl
  simp only [mergeResults, List.foldl_cons, List.foldl_nil] at h ⊢
  rw [h]

theorem AddResult_series_isSome (sr : ShardResult) (r : Option ShardResult) (id : String) :
    ((sr.AddResult r).series id).isSome
      = ((sr.series id).isSome || (seriesOf r id).isSome) := by
  cases r with
  | none => simp [ShardResult.AddResult, seriesOf]
  | some d =>
    simp only [ShardResult.AddResult, seriesOf]
    cases sr.series id <;> cases d.series id <;> rfl

theorem mergeResults_series_isSome (o : DatabaseOptions) (l : List (Option ShardResult))
    (id : String) :
    ((mergeResults o l).series id).isSome = l.any (fun r => (seriesOf r id).isSome) := by
  have key : ∀ (l : List (Option ShardResult)) (acc : ShardResult),
      ((l.foldl (fun final result => final.AddResult result) acc).series id).isSome
        = ((acc.series id).isSome || l.any (fun r => (seriesOf r id).isSome)) := by
    intro l
    induction l with
    | nil => intro acc; simp
    | cons r l ih =>
      intro acc
      simp only [List.foldl_cons, ih, AddResult_series_isSome, List.any_cons, Bool.or_assoc]
  unfold mergeResults
  rw [key]
  simp [NewShardResult]

/-! ## Unfolding `baseBootstrapper.Bootstrap` -/

theorem Bootstrap_base_of_isEmpty (s : Source) (dbOpts : DatabaseOptions) (next : Bootstrapper)
    (shard : Nat) (targetRanges : Ranges) (h : IsEmpty targetRanges = true) :
    (Bootstrapper.base s dbOpts next).Bootstrap shard targetRanges = ⟨none, none, []⟩ := by
  cases targetRanges with
  | none => simp [Bootstrapper.Bootstrap]
  | some tr =>
    have htr : tr.isEmpty = true := h
    simp [Bootstrapper.Bootstrap, htr]

theorem Bootstrap_base_unfulfilled (s : Source) (dbOpts : DatabaseOptions) (next : Bootstrapper)
    (shard : Nat) (tr : RangeList) (h : IsEmpty (some tr) = false) :
    ((Bootstrapper.base s dbOpts next).Bootstrap shard (some tr)).unfulfilled
      = mergeTimeRanges
          [if IsEmpty (s.ReadData shard (s.GetAvailability shard (some tr))).2 then
              (s.ReadData shard (s.GetAvailability shard (some tr))).2
            else
              (next.Bootstrap shard
                (s.ReadData shard (s.GetAvailability shard (some tr))).2).unfulfilled,
            (next.Bootstrap shard
              (some (tr.RemoveRanges (s.GetAvailability shard (some tr))))).unfulfilled] := by
  have htr : tr.isEmpty = false := h
  simp only [Bootstrapper.Bootstrap, htr]
  cases hU : IsEmpty (s.ReadData shard (s.GetAvailability shard (some tr))).2 <;> simp [hU]

theorem Bootstrap_base_result (s : Source) (dbOpts : DatabaseOptions) (next : Bootstrapper)
    (shard : Nat) (tr : RangeList) (h : IsEmpty (some tr) = false) :
    ((Bootstrapper.base s dbOpts next).Bootstrap shard (some tr)).result
      = if IsEmpty (s.ReadData shard (s.GetAvailability shard (some tr))).2 then
          some (mergeResults dbOpts
            [(s.ReadData shard (s.GetAvailability shard (some tr))).1,
              (next.Bootstrap shard
                (some (tr.RemoveRanges (s.GetAvailability shard (some tr))))).result])
        else
          some (mergeResults dbOpts
            [some (mergeResults dbOpts
              [(s.ReadData shard (s.GetAvailability shard (some tr))).1,
                (next.Bootstrap shard
                  (some (tr.RemoveRanges (s.GetAvailability shard (some tr))))).result]),
              (next.Bootstrap shard
                (s.ReadData shard (s.GetAvailability shard (some tr))).2).result]) := by
  have htr : tr.isEmpty = false := h
  simp only [Bootstrapper.Bootstrap, htr]
  cases hU : IsEmpty (s.ReadData shard (s.GetAvailability shard (some tr))).2 <;> simp [hU]

theorem Bootstrap_base_calls (s : Source) (dbOpts : DatabaseOptions) (next : Bootstrapper)
    (shard : Nat) (tr : RangeList) (h : IsEmpty (some tr) = false) :
    ((Bootstrapper.base s dbOpts next).Bootstrap shard (some tr)).calls
      = [⟨0, Op.getAvailability, shard, some tr⟩,
          ⟨0, Op.nextBootstrap, shard,
            some (tr.RemoveRanges (s.GetAvailability shard (some tr)))⟩]
        ++ (next.Bootstrap shard
              (some (tr.RemoveRanges (s.GetAvailability shard (some tr))))).calls.map Call.deeper
        ++ [⟨0, Op.readData, shard, s.GetAvailability shard (some tr)⟩]
        ++ (if IsEmpty (s.ReadData shard (s.GetAvailability shard (some tr))).2 then []
            else
              [⟨0, Op.nextBootstrap, shard,
                  (s.ReadData shard (s.GetAvailability shard (some tr))).2⟩]
              ++ (next.Bootstrap shard
                    (s.ReadData shard (s.GetAvailability shard (some tr))).2).calls.map
                  Call.deeper) := by
  have htr : tr.isEmpty = false := h
  simp only [Bootstrapper.Bootstrap, htr]
  cases hU : IsEmpty (s.ReadData shard (s.GetAvailability shard (some tr))).2 <;> simp [hU]

/-! ## Lemmas on the recorded calls -/

theorem ownCalls_append (a b : List Call) : ownCalls (a ++ b) = ownCalls a ++ ownCalls b := by
  simp [ownCalls]

theorem ownCalls_map_deeper (l : List Call) : ownCalls (l.map Call.deeper) = [] := by
  simp [ownCalls, Call.deeper]

theorem Bootstrap_base_ownCalls (s : Source) (dbOpts : DatabaseOptions) (next : Bootstrapper)
    (shard : Nat) (tr : RangeList) (h : IsEmpty (some tr) = false) :
    ownCalls ((Bootstrapper.base s dbOpts next).Bootstrap shard (some tr)).calls
      = [⟨0, Op.getAvailability, shard, some tr⟩,
          ⟨0, Op.nextBootstrap, shard,
            some (tr.RemoveRanges (s.GetAvailability shard (some tr)))⟩,
          ⟨0, Op.readData, shard, s.GetAvailability shard (some tr)⟩]
        ++ (if IsEmpty (s.ReadData shard (s.GetAvailability shard (some tr))).2 then []
            else
              [⟨0, Op.nextBootstrap, shard,
                  (s.ReadData shard (s.GetAvailability shard (some tr))).2⟩]) := by
  rw [Bootstrap_base_calls s dbOpts next shard tr h]
  cases hU : IsEmpty (s.ReadData shard (s.GetAvailability shard (some tr))).2
  · simp only [Bool.false_eq_true, if_false, ownCalls_append, ownCalls_map_deeper,
      List.append_nil]
    rfl
  · simp only [if_true, ownCalls_append, ownCalls_map_deeper, List.append_nil]
    rfl

/-! ## Lemmas on chains -/

theorem chain_cons (o : DatabaseOptions) (s : Source) (rest : List Source) :
    chain o (s :: rest) = Bootstrapper.base s o (chain o rest) := rfl

/-- The shared induction behind the subset property: along a chain whose
Sources answer within what they are asked, the unfulfilled set stays within
the request. -/
theorem chain_unfulfilled_subset (o : DatabaseOptions) (srcs : List Source) (shard : Nat)
    (hav : ∀ s ∈ srcs, ∀ req t,
      (s.GetAvailability shard req).covers t = true → req.covers t = true)
    (hrd : ∀ s ∈ srcs, ∀ req t,
      (s.ReadData shard req).2.covers t = true → req.covers t = true) :
    ∀ (targetRanges : Ranges) (t : Int),
      ((chain o srcs).Bootstrap shard targetRanges).unfulfilled.covers t = true →
        targetRanges.covers t = true := by
  induction srcs with
  | nil => intro targetRanges t h; exact h
  | cons s rest ih =>
    have ih2 := ih (fun s hs => hav s (List.mem_cons_of_mem _ hs))
      (fun s hs => hrd s (List.mem_cons_of_mem _ hs))
    have havs := hav s (List.mem_cons_self _ _)
    have hrds := hrd s (List.mem_cons_self _ _)
    intro targetRanges t h
    rw [chain_cons] at h
    cases targetRanges with
    | none =>
      rw [Bootstrap_base_of_isEmpty s o _ shard none rfl] at h
      exact h
    | some tr =>
      rcases IsEmpty_some_eq_false_or tr with he | he
      · rw [Bootstrap_base_of_isEmpty s o _ shard (some tr) he] at h
        exact absurd h (by simp [Ranges.covers])
      · rw [Bootstrap_base_unfulfilled s o _ shard tr he, mergeTimeRanges_pair_covers,
          Bool.or_eq_true] at h
        rcases h with h | h
        · cases hU : IsEmpty (s.ReadData shard (s.GetAvailability shard (some tr))).2
          · rw [hU] at h
            simp only [Bool.false_eq_true, if_false] at h
            exact havs _ _ (hrds _ _ (ih2 _ _ h))
          · rw [hU] at h
            simp only [if_true] at h
            rw [Ranges.covers_of_isEmpty _ hU] at h
            exact absurd h (by simp)
        · have h2 := ih2 _ _ h
          rw [Ranges.covers_some, RangeList.RemoveRanges_covers, Bool.and_eq_true] at h2
          exact h2.1

/-- Ranges that no Source of the chain ever reports available come back
unfulfilled. -/
theorem chain_unavailable_unfulfilled (o : DatabaseOptions) (srcs : List Source) (shard : Nat)
    (R : Ranges)
    (hno : ∀ s ∈ srcs, ∀ req t,
      R.covers t = true → (s.GetAvailability shard req).covers t = false) :
    ∀ (req : Ranges) (t : Int), R.covers t = true → req.covers t = true →
      ((chain o srcs).Bootstrap shard req).unfulfilled.covers t = true := by
  induction srcs with
  | nil => intro req t _ h; exact h
  | cons s rest ih =>
    have ih2 := ih (fun s hs => hno s (List.mem_cons_of_mem _ hs))
    have hnos := hno s (List.mem_cons_self _ _)
    intro req t hR hreq
    rw [chain_cons]
    cases req with
    | none => exact absurd hreq (by simp [Ranges.covers])
    | some tr =>
      rcases IsEmpty_some_eq_false_or tr with he | he
      · rw [Ranges.covers_of_isEmpty _ he] at hreq
        exact absurd hreq (by simp)
      · rw [Bootstrap_base_unfulfilled s o _ shard tr he, mergeTimeRanges_pair_covers,
          Bool.or_eq_true]
        right
        apply ih2 _ _ hR
        rw [Ranges.covers_some, RangeList.RemoveRanges_covers, hnos _ _ hR]
        rw [Ranges.covers_some] at hreq
        simp [hreq]

/-- When every Source supplies exactly what lies outside `R`, a chain hands
back, of any request, the part inside `R` (all of it when the chain has no
Source). -/
theorem chain_hole_unfulfilled (o : DatabaseOptions) (srcs : List Source) (shard : Nat)
    (R : Ranges)
    (hav : ∀ s ∈ srcs, ∀ req t,
      (s.GetAvailability shard req).covers t = (req.covers t && !R.covers t))
    (hrd : ∀ s ∈ srcs, ∀ req,
      IsEmpty (s.ReadData shard (s.GetAvailability shard req)).2 = true) :
    ∀ (req : Ranges) (t : Int),
      ((chain o srcs).Bootstrap shard req).unfulfilled.covers t
        = (req.covers t && (srcs.isEmpty || R.covers t)) := by
  induction srcs with
  | nil => intro req t; simp [chain, Bootstrapper.Bootstrap, noOpBootstrap]
  | cons s rest ih =>
    have ih2 := ih (fun s hs => hav s (List.mem_cons_of_mem _ hs))
      (fun s hs => hrd s (List.mem_cons_of_mem _ hs))
    have havs := hav s (List.mem_cons_self _ _)
    have hrds := hrd s (List.mem_cons_self _ _)
    intro req t
    rw [chain_cons]
    cases req with
    | none =>
      rw [Bootstrap_base_of_isEmpty s o _ shard none rfl]
      simp [Ranges.covers]
    | some tr =>
      rcases IsEmpty_some_eq_false_or tr with he | he
      · rw [Bootstrap_base_of_isEmpty s o _ shard (some tr) he, Ranges.covers_of_isEmpty _ he]
        simp [Ranges.covers]
      · rw [Bootstrap_base_unfulfilled s o _ shard tr he, mergeTimeRanges_pair_covers,
          hrds (some tr)]
        simp only [if_true]
        rw [Ranges.covers_of_isEmpty _ (hrds (some tr)), ih2, Ranges.covers_some,
          RangeList.RemoveRanges_covers, havs, Ranges.covers_some]
        cases RangeList.covers tr t <;> cases R.covers t <;> cases rest.isEmpty <;> rfl

/-- Asked for exactly the normalized `R` that no Source supplies, a chain hands
`R` back (or nil for an `R` without ranges). -/
theorem chain_hole_exact (o : DatabaseOptions) (srcs : List Source) (shard : Nat)
    (Rl : RangeList) (hRl : RangeList.Normalized Rl)
    (hav : ∀ s ∈ srcs, ∀ req t,
      (s.GetAvailability shard req).covers t = (req.covers t && !Ranges.covers (some Rl) t))
    (hrd : ∀ s ∈ srcs, ∀ req,
      IsEmpty (s.ReadData shard (s.GetAvailability shard req)).2 = true)
    (hne : ∀ s ∈ srcs, ∀ req : RangeList, req.Normalized →
      ∀ r ∈ (s.GetAvailability shard (some req)).getD [], r.start < r.stop) :
    NewRanges.AddRanges ((chain o srcs).Bootstrap shard (some Rl)).unfulfilled = Rl := by
  induction srcs with
  | nil => exact RangeList.NewRanges_AddRanges Rl hRl
  | cons s rest ih =>
    have ih2 := ih (fun s hs => hav s (List.mem_cons_of_mem _ hs))
      (fun s hs => hrd s (List.mem_cons_of_mem _ hs))
      (fun s hs => hne s (List.mem_cons_of_mem _ hs))
    have havs := hav s (List.mem_cons_self _ _)
    have hrds := hrd s (List.mem_cons_self _ _)
    have hnes := hne s (List.mem_cons_self _ _)
    rw [chain_cons]
    rcases IsEmpty_some_eq_false_or Rl with he | he
    · rw [Bootstrap_base_of_isEmpty s o _ shard (some Rl) he]
      cases Rl with
      | nil => rfl
      | cons r rs => simp [IsEmpty] at he
    · have hempty : IsEmpty (s.GetAvailability shard (some Rl)) = true := by
        apply Ranges.isEmpty_of_covers_false _ (hnes _ hRl)
        intro t
        rw [havs]
        cases Ranges.covers (some Rl) t <;> rfl
      rw [Bootstrap_base_unfulfilled s o _ shard Rl he, hrds (some Rl),
        RangeList.RemoveRanges_of_isEmpty Rl _ hempty]
      simp only [if_true, mergeTimeRanges_pair]
      rw [RangeList.AddRanges_of_isEmpty _ _ (hrds (some Rl)), ih2]
      exact RangeList.NewRanges_AddRanges Rl hRl

/-- On a normalized non-empty request containing the normalized `R`, a chain
of one or more Sources that each supply exactly what lies outside `R` returns
`R` itself as the unfulfilled set. -/
theorem chain_hole_head_exact (o : DatabaseOptions) (srcs : List Source) (shard : Nat)
    (tr Rl : RangeList) (hN : srcs ≠ []) (htr : RangeList.Normalized tr)
    (hRl : RangeList.Normalized Rl) (he : IsEmpty (some tr) = false)
    (hR : ∀ t, RangeList.covers Rl t = true → RangeList.covers tr t = true)
    (hav : ∀ s ∈ srcs, ∀ req t,
      (s.GetAvailability shard req).covers t = (req.covers t && !Ranges.covers (some Rl) t))
    (hrd : ∀ s ∈ srcs, ∀ req,
      IsEmpty (s.ReadData shard (s.GetAvailability shard req)).2 = true)
    (hne : ∀ s ∈ srcs, ∀ req : RangeList, req.Normalized →
      ∀ r ∈ (s.GetAvailability shard (some req)).getD [], r.start < r.stop) :
    ((chain o srcs).Bootstrap shard (some tr)).unfulfilled = some Rl := by
  cases srcs with
  | nil => exact absurd rfl hN
  | cons s rest =>
    have havs := hav s (List.mem_cons_self _ _)
    have hrds := hrd s (List.mem_cons_self _ _)
    have hnes := hne s (List.mem_cons_self _ _)
    have hrem : tr.RemoveRanges (s.GetAvailability shard (some tr)) = Rl := by
      apply RangeList.Normalized.eq_of_covers
        (RangeList.RemoveRanges_normalized tr _ htr (hnes _ htr)) hRl
      intro t
      rw [RangeList.RemoveRanges_covers, havs, Ranges.covers_some, Ranges.covers_some]
      cases hc : RangeList.covers Rl t
      · cases RangeList.covers tr t <;> rfl
      · rw [hR t hc]; rfl
    rw [chain_cons, Bootstrap_base_unfulfilled s o _ shard tr he, hrds (some tr), hrem]
    simp only [if_true, mergeTimeRanges_pair]
    rw [RangeList.AddRanges_of_isEmpty _ _ (hrds (some tr)),
      chain_hole_exact o rest shard Rl hRl (fun s hs => hav s (List.mem_cons_of_mem _ hs))
        (fun s hs => hrd s (List.mem_cons_of_mem _ hs))
        (fun s hs => hne s (List.mem_cons_of_mem _ hs))]

theorem holeSource_availability (name : String) (R req : Ranges) (shard : Nat) (t : Int) :
    ((holeSource name R).GetAvailability shard req).covers t
      = (req.covers t && !R.covers t) := by
  simp [holeSource, Ranges.covers_some, RangeList.RemoveRanges_covers, Ranges.covers_getD]

theorem holeSource_reports_nonempty (name : String) (hole : Range) (req : Ranges)
    (shard : Nat) :
    ∀ r ∈ ((holeSource name (some [hole])).GetAvailability shard req).getD [],
      r.start < r.stop := by
  intro r hr
  exact RangeList.removeRange_nonempty _ hole r hr

/-! ## The claims -/

/-- C1: on an empty `targetRanges` (nil or holding no range), `Bootstrap` of a
chain node, whatever its Source and its next, returns `(nil, nil)` and makes
no call at all: none to `GetAvailability`, `ReadData` or `next.Bootstrap`. -/
theorem C1_empty_target_fast_exit (s : Source) (dbOpts : DatabaseOptions)
    (next : Bootstrapper) (shard : Nat) (targetRanges : Ranges)
    (h : IsEmpty targetRanges = true) :
    ((Bootstrapper.base s dbOpts next).Bootstrap shard targetRanges).result = none ∧
    ((Bootstrapper.base s dbOpts next).Bootstrap shard targetRanges).unfulfilled = none ∧
    ((Bootstrapper.base s dbOpts next).Bootstrap shard targetRanges).calls = [] := by
  rw [Bootstrap_base_of_isEmpty s dbOpts next shard targetRanges h]
  exact ⟨rfl, rfl, rfl⟩

theorem C1_empty_target_fast_exit_witness :
    IsEmpty (some []) = true ∧
    ((Bootstrapper.base fullSource sampleOpts (Bootstrapper.base peerSource sampleOpts
        Bootstrapper.noOp)).Bootstrap 7 (some [])).result = none ∧
    ((Bootstrapper.base fullSource sampleOpts (Bootstrapper.base peerSource sampleOpts
        Bootstrapper.noOp)).Bootstrap 7 (some [])).unfulfilled = none ∧
    ((Bootstrapper.base fullSource sampleOpts (Bootstrapper.base peerSource sampleOpts
        Bootstrapper.noOp)).Bootstrap 7 (some [])).calls = [] :=
  ⟨rfl, C1_empty_target_fast_exit fullSource sampleOpts
    (Bootstrapper.base peerSource sampleOpts Bootstrapper.noOp) 7 (some []) rfl⟩

/-- C2: for a non-empty `targetRanges`, the unfulfilled set returned by
`Bootstrap` is the merge (`mergeTimeRanges`, the algebra union) of the
unfulfilled set of the fallback call, or the empty set when the read left
nothing, and of the unfulfilled set of the delegation of
`targetRanges minus available`; it covers exactly the instants covered by one
of the two.  The read's own leftover enters only as the argument of the
fallback call. -/
theorem C2_unfulfilled_accounting (s : Source) (dbOpts : DatabaseOptions)
    (next : Bootstrapper) (shard : Nat) (tr : RangeList)
    (h : IsEmpty (some tr) = false) :
    ((Bootstrapper.base s dbOpts next).Bootstrap shard (some tr)).unfulfilled
      = mergeTimeRanges [fallbackUnfulfilled s next shard tr,
          delegatedUnfulfilled s next shard tr] ∧
    ∀ t, ((Bootstrapper.base s dbOpts next).Bootstrap shard (some tr)).unfulfilled.covers t
      = ((delegatedUnfulfilled s next shard tr).covers t
          || (fallbackUnfulfilled s next shard tr).covers t) := by
  have key : ((Bootstrapper.base s dbOpts next).Bootstrap shard (some tr)).unfulfilled
      = mergeTimeRanges [fallbackUnfulfilled s next shard tr,
          delegatedUnfulfilled s next shard tr] := by
    rw [Bootstrap_base_unfulfilled s dbOpts next shard tr h]
    unfold fallbackUnfulfilled delegatedUnfulfilled
    cases hU : IsEmpty (s.ReadData shard (s.GetAvailability shard (some tr))).2
    · simp
    · simp only [if_true, mergeTimeRanges_pair]
      rw [RangeList.AddRanges_of_isEmpty _ _ hU]
      rfl
  refine ⟨key, fun t => ?_⟩
  rw [key, mergeTimeRanges_pair_covers, Bool.or_comm]

theorem C2_unfulfilled_accounting_witness :
    IsEmpty (some [⟨0, 10⟩]) = false ∧
    (((Bootstrapper.base partialSource sampleOpts Bootstrapper.noOp).Bootstrap 0
        (some [⟨0, 10⟩])).unfulfilled
      = mergeTimeRanges [fallbackUnfulfilled partialSource Bootstrapper.noOp 0 [⟨0, 10⟩],
          delegatedUnfulfilled partialSource Bootstrapper.noOp 0 [⟨0, 10⟩]] ∧
    ∀ t, ((Bootstrapper.base partialSource sampleOpts Bootstrapper.noOp).Bootstrap 0
        (some [⟨0, 10⟩])).unfulfilled.covers t
      = ((delegatedUnfulfilled partialSource Bootstrapper.noOp 0 [⟨0, 10⟩]).covers t
          || (fallbackUnfulfilled partialSource Bootstrapper.noOp 0 [⟨0, 10⟩]).covers t)) :=
  ⟨rfl, C2_unfulfilled_accounting partialSource sampleOpts Bootstrapper.noOp 0 [⟨0, 10⟩] rfl⟩

/-- C3 fails as stated: the Source `strayingSource` answers `GetAvailability`
within what it is asked, but its read reports `[100, 200)` unfulfilled; on the
one-node chain that instant range comes back unfulfilled although
`targetRanges` is `[0, 10)`. -/
theorem C3_counterexample :
    (∀ shard req t, (strayingSource.GetAvailability shard req).covers t = true →
      req.covers t = true) ∧
    ((chain sampleOpts [strayingSource]).Bootstrap 0 (some [⟨0, 10⟩])).unfulfilled.covers 150
      = true ∧
    Ranges.covers (some [⟨0, 10⟩]) 150 = false := by
  refine ⟨fun _ _ _ h => h, ?_, ?_⟩ <;> decide

/-- C3, amended: along a chain of base nodes ending in the no-op terminal, when
each Source's `GetAvailability` answers within the ranges requested of it and
each Source's `ReadData` reports as unfulfilled only ranges it was asked to
read, the unfulfilled set returned by `Bootstrap(shard, targetRanges)` lies
within `targetRanges`. -/
theorem C3_unfulfilled_within_target (o : DatabaseOptions) (srcs : List Source) (shard : Nat)
    (targetRanges : Ranges)
    (hav : ∀ s ∈ srcs, ∀ req t,
      (s.GetAvailability shard req).covers t = true → req.covers t = true)
    (hrd : ∀ s ∈ srcs, ∀ req t,
      (s.ReadData shard req).2.covers t = true → req.covers t = true) :
    ∀ t, ((chain o srcs).Bootstrap shard targetRanges).unfulfilled.covers t = true →
      targetRanges.covers t = true :=
  chain_unfulfilled_subset o srcs shard hav hrd targetRanges

theorem C3_unfulfilled_within_target_witness :
    ((chain sampleOpts [partialSource, idleSource]).Bootstrap 0
        (some [⟨0, 10⟩])).unfulfilled.covers 7 = true ∧
    Ranges.covers (some [⟨0, 10⟩]) 7 = true :=
  ⟨by decide,
    C3_unfulfilled_within_target sampleOpts [partialSource, idleSource] 0 (some [⟨0, 10⟩])
      (by
        intro s hs req t h
        simp only [List.mem_cons, List.mem_singleton, List.not_mem_nil, or_false] at hs
        rcases hs with rfl | rfl
        · exact h
        · exact absurd h (by simp [idleSource, Ranges.covers]))
      (by
        intro s hs req t h
        simp only [List.mem_cons, List.mem_singleton, List.not_mem_nil, or_false] at hs
        rcases hs with rfl | rfl
        · simp only [partialSource, Ranges.covers_some, RangeList.RemoveRanges_covers,
            Ranges.covers_getD, Bool.and_eq_true] at h
          exact h.1
        · exact absurd h (by simp [idleSource, Ranges.covers]))
      7 (by decide)⟩

/-- C4: along a chain of one or more base nodes ending in the no-op terminal,
for a sub-range set `R` of `targetRanges`: if no Source ever reports any part of
`R` available, the returned unfulfilled set contains `R`; and if every Source
reports exactly what lies outside `R` available and reads it with no leftover,
then in whatever order the Sources are chained the returned unfulfilled set
covers exactly the instants of `R`, and is `R` itself when `targetRanges` and
`R` are normalized collections and the Sources, asked for a normalized
collection, report no empty range. -/
theorem C4_chain_exhaustion (o : DatabaseOptions) (srcs : List Source) (shard : Nat)
    (targetRanges R : Ranges) (hN : srcs ≠ [])
    (hR : ∀ t, R.covers t = true → targetRanges.covers t = true) :
    ((∀ s ∈ srcs, ∀ req t,
        R.covers t = true → (s.GetAvailability shard req).covers t = false) →
      ∀ t, R.covers t = true →
        ((chain o srcs).Bootstrap shard targetRanges).unfulfilled.covers t = true) ∧
    ((∀ s ∈ srcs, ∀ req t,
        (s.GetAvailability shard req).covers t = (req.covers t && !R.covers t)) →
      (∀ s ∈ srcs, ∀ req,
        IsEmpty (s.ReadData shard (s.GetAvailability shard req)).2 = true) →
      ∀ reordered : List Source, reordered.Perm srcs →
        (∀ t, ((chain o reordered).Bootstrap shard targetRanges).unfulfilled.covers t
          = R.covers t) ∧
        (∀ tr Rl : RangeList, targetRanges = some tr → R = some Rl →
          IsEmpty (some tr) = false → tr.Normalized → Rl.Normalized →
          (∀ s ∈ srcs, ∀ req : RangeList, req.Normalized →
            ∀ r ∈ (s.GetAvailability shard (some req)).getD [], r.start < r.stop) →
          ((chain o reordered).Bootstrap shard targetRanges).unfulfilled = some Rl)) := by
  constructor
  · intro hno t ht
    exact chain_unavailable_unfulfilled o srcs shard R hno targetRanges t ht (hR t ht)
  · intro hav hrd reordered hperm
    have hne : reordered.isEmpty = false := by
      cases reordered with
      | nil => exact absurd hperm.symm.eq_nil hN
      | cons _ _ => rfl
    constructor
    · intro t
      rw [chain_hole_unfulfilled o reordered shard R
        (fun s hs => hav s (hperm.mem_iff.mp hs)) (fun s hs => hrd s (hperm.mem_iff.mp hs)),
        hne]
      cases hc : R.covers t
      · simp
      · simp [hR t hc]
    · intro tr Rl htr hRl he hntr hnRl hnon
      subst htr hRl
      exact chain_hole_head_exact o reordered shard tr Rl
        (by intro h; rw [h] at hne; exact absurd hne (by simp)) hntr hnRl he hR
        (fun s hs => hav s (hperm.mem_iff.mp hs)) (fun s hs => hrd s (hperm.mem_iff.mp hs))
        (fun s hs => hnon s (hperm.mem_iff.mp hs))

theorem C4_chain_exhaustion_witness :
    (Ranges.covers (some [⟨10, 20⟩]) 15 = true ∧
      ((chain sampleOpts [holeSource "peers" (some [⟨10, 20⟩]), idleSource,
          holeSource "filesystem" (some [⟨10, 20⟩])]).Bootstrap 0
        (some [⟨0, 30⟩])).unfulfilled.covers 15 = true) ∧
    ((chain sampleOpts [holeSource "filesystem" (some [⟨10, 20⟩]),
        holeSource "peers" (some [⟨10, 20⟩]),
        holeSource "commitlog" (some [⟨10, 20⟩])]).Bootstrap 0
      (some [⟨0, 30⟩])).unfulfilled.covers 15 = Ranges.covers (some [⟨10, 20⟩]) 15 ∧
    ((chain sampleOpts [holeSource "filesystem" (some [⟨10, 20⟩]),
        holeSource "peers" (some [⟨10, 20⟩]),
        holeSource "commitlog" (some [⟨10, 20⟩])]).Bootstrap 0
      (some [⟨0, 30⟩])).unfulfilled = some [⟨10, 20⟩] := by
  have hR : ∀ t, Ranges.covers (some [⟨10, 20⟩]) t = true →
      Ranges.covers (some [⟨0, 30⟩]) t = true := by
    intro t h
    simp only [Ranges.covers_some, RangeList.covers_iff, List.mem_singleton, exists_eq_left]
      at h ⊢
    omega
  have hboth := (C4_chain_exhaustion sampleOpts [holeSource "peers" (some [⟨10, 20⟩]),
      holeSource "commitlog" (some [⟨10, 20⟩]),
      holeSource "filesystem" (some [⟨10, 20⟩])] 0 (some [⟨0, 30⟩]) (some [⟨10, 20⟩])
      (by simp) hR).2
    (by
      intro s hs req t
      simp only [List.mem_cons, List.mem_singleton, List.not_mem_nil, or_false] at hs
      rcases hs with rfl | rfl | rfl <;> exact holeSource_availability _ _ _ _ _)
    (by
      intro s hs req
      simp only [List.mem_cons, List.mem_singleton, List.not_mem_nil, or_false] at hs
      rcases hs with rfl | rfl | rfl <;> rfl)
    [holeSource "filesystem" (some [⟨10, 20⟩]), holeSource "peers" (some [⟨10, 20⟩]),
      holeSource "commitlog" (some [⟨10, 20⟩])]
    (show List.Perm ([holeSource "filesystem" (some [⟨10, 20⟩])]
        ++ [holeSource "peers" (some [⟨10, 20⟩]), holeSource "commitlog" (some [⟨10, 20⟩])])
        ([holeSource "peers" (some [⟨10, 20⟩]), holeSource "commitlog" (some [⟨10, 20⟩])]
        ++ [holeSource "filesystem" (some [⟨10, 20⟩])]) from List.perm_append_comm)
  refine ⟨⟨by decide, ?_⟩, hboth.1 15, ?_⟩
  · refine (C4_chain_exhaustion sampleOpts [holeSource "peers" (some [⟨10, 20⟩]), idleSource,
      holeSource "filesystem" (some [⟨10, 20⟩])] 0 (some [⟨0, 30⟩]) (some [⟨10, 20⟩])
      (by simp) hR).1 ?_ 15 (by decide)
    intro s hs req t ht
    simp only [List.mem_cons, List.mem_singleton, List.not_mem_nil, or_false] at hs
    rcases hs with rfl | rfl | rfl
    · rw [holeSource_availability, ht]; simp
    · rfl
    · rw [holeSource_availability, ht]; simp
  · refine hboth.2 [⟨0, 30⟩] [⟨10, 20⟩] rfl rfl rfl (by decide) (by decide) ?_
    intro s hs req _
    simp only [List.mem_cons, List.mem_singleton, List.not_mem_nil, or_false] at hs
    rcases hs with rfl | rfl | rfl <;> exact holeSource_reports_nonempty _ _ _ _

/-- C5: a node whose Source advertises all of a non-empty `targetRanges` but
whose read leaves a non-empty `U`, with a next that fully satisfies `U` and
answers an empty request with an empty unfulfilled set: the node calls
`next.Bootstrap` twice, first with the empty remainder and then with exactly
`U`; the returned unfulfilled set is empty; the returned result is the merge of
the read result, the first delegation's result and the fallback's result, and
so holds every series of the Source's read and of next's fallback answer. -/
theorem C5_partial_delivery_fallback (s : Source) (dbOpts : DatabaseOptions)
    (next : Bootstrapper) (shard : Nat) (tr : RangeList)
    (hne : IsEmpty (some tr) = false)
    (hav : s.GetAvailability shard (some tr) = some tr)
    (hU : IsEmpty (s.ReadData shard (some tr)).2 = false)
    (hnext : IsEmpty (next.Bootstrap shard (s.ReadData shard (some tr)).2).unfulfilled = true)
    (hempty : ∀ e, IsEmpty e = true → IsEmpty (next.Bootstrap shard e).unfulfilled = true) :
    ownCalls ((Bootstrapper.base s dbOpts next).Bootstrap shard (some tr)).calls
      = [⟨0, Op.getAvailability, shard, some tr⟩,
          ⟨0, Op.nextBootstrap, shard, some []⟩,
          ⟨0, Op.readData, shard, some tr⟩,
          ⟨0, Op.nextBootstrap, shard, (s.ReadData shard (some tr)).2⟩] ∧
    IsEmpty ((Bootstrapper.base s dbOpts next).Bootstrap shard (some tr)).unfulfilled = true ∧
    ((Bootstrapper.base s dbOpts next).Bootstrap shard (some tr)).result
      = some (mergeResults dbOpts
          [(s.ReadData shard (some tr)).1, (next.Bootstrap shard (some [])).result,
            (next.Bootstrap shard (s.ReadData shard (some tr)).2).result]) ∧
    ∀ id,
      (seriesOf ((Bootstrapper.base s dbOpts next).Bootstrap shard (some tr)).result id).isSome
        = ((seriesOf (s.ReadData shard (some tr)).1 id).isSome
            || (seriesOf (next.Bootstrap shard (some [])).result id).isSome
            || (seriesOf (next.Bootstrap shard (s.ReadData shard (some tr)).2).result
                id).isSome) := by
  have hres : ((Bootstrapper.base s dbOpts next).Bootstrap shard (some tr)).result
      = some (mergeResults dbOpts
          [(s.ReadData shard (some tr)).1, (next.Bootstrap shard (some [])).result,
            (next.Bootstrap shard (s.ReadData shard (some tr)).2).result]) := by
    rw [Bootstrap_base_result s dbOpts next shard tr hne, hav, hU,
      RangeList.RemoveRanges_self]
    simp only [Bool.false_eq_true, if_false, mergeResults_nested]
  refine ⟨?_, ?_, hres, ?_⟩
  · rw [Bootstrap_base_ownCalls s dbOpts next shard tr hne, hav, hU,
      RangeList.RemoveRanges_self]
    simp
  · rw [Bootstrap_base_unfulfilled s dbOpts next shard tr hne, hav, hU,
      RangeList.RemoveRanges_self, mergeTimeRanges_pair_isEmpty]
    simp only [Bool.false_eq_true, if_false, hnext, hempty (some []) rfl, Bool.and_self]
  · intro id
    rw [hres]
    simp only [seriesOf, mergeResults_series_isSome, List.any_cons, List.any_nil, Bool.or_false,
      Bool.or_assoc]

theorem C5_partial_delivery_fallback_witness :
    ownCalls ((Bootstrapper.base partialSource sampleOpts
        (Bootstrapper.base peerSource sampleOpts Bootstrapper.noOp)).Bootstrap 0
        (some [⟨0, 10⟩])).calls
      = [⟨0, Op.getAvailability, 0, some [⟨0, 10⟩]⟩,
          ⟨0, Op.nextBootstrap, 0, some []⟩,
          ⟨0, Op.readData, 0, some [⟨0, 10⟩]⟩,
          ⟨0, Op.nextBootstrap, 0, (partialSource.ReadData 0 (some [⟨0, 10⟩])).2⟩] ∧
    IsEmpty ((Bootstrapper.base partialSource sampleOpts
        (Bootstrapper.base peerSource sampleOpts Bootstrapper.noOp)).Bootstrap 0
        (some [⟨0, 10⟩])).unfulfilled = true ∧
    ((Bootstrapper.base partialSource sampleOpts
        (Bootstrapper.base peerSource sampleOpts Bootstrapper.noOp)).Bootstrap 0
        (some [⟨0, 10⟩])).result
      = some (mergeResults sampleOpts
          [(partialSource.ReadData 0 (some [⟨0, 10⟩])).1,
            ((Bootstrapper.base peerSource sampleOpts Bootstrapper.noOp).Bootstrap 0
              (some [])).result,
            ((Bootstrapper.base peerSource sampleOpts Bootstrapper.noOp).Bootstrap 0
              (partialSource.ReadData 0 (some [⟨0, 10⟩])).2).result]) ∧
    ∀ id,
      (seriesOf ((Bootstrapper.base partialSource sampleOpts
        (Bootstrapper.base peerSource sampleOpts Bootstrapper.noOp)).Bootstrap 0
        (some [⟨0, 10⟩])).result id).isSome
        = ((seriesOf (partialSource.ReadData 0 (some [⟨0, 10⟩])).1 id).isSome
            || (seriesOf ((Bootstrapper.base peerSource sampleOpts Bootstrapper.noOp).Bootstrap 0
                (some [])).result id).isSome
            || (seriesOf ((Bootstrapper.base peerSource sampleOpts Bootstrapper.noOp).Bootstrap 0
                (partialSource.ReadData 0 (some [⟨0, 10⟩])).2).result id).isSome) :=
  C5_partial_delivery_fallback partialSource sampleOpts
    (Bootstrapper.base peerSource sampleOpts Bootstrapper.noOp) 0 [⟨0, 10⟩]
    rfl rfl (by decide) (by decide)
    (fun e he => by rw [Bootstrap_base_of_isEmpty peerSource sampleOpts _ 0 e he]; rfl)

/-- C6: a node whose next is the no-op terminal, on a non-empty
`targetRanges` that its Source reports wholly available and reads with result
`D` and an empty leftover, returns an empty unfulfilled set and the merge of `D`
with the terminal's nil result, whose series are exactly those of `D`. -/
theorem C6_full_success (s : Source) (dbOpts : DatabaseOptions) (shard : Nat)
    (tr : RangeList) (hne : IsEmpty (some tr) = false)
    (hav : s.GetAvailability shard (some tr) = some tr)
    (hU : IsEmpty (s.ReadData shard (some tr)).2 = true) :
    IsEmpty ((Bootstrapper.base s dbOpts Bootstrapper.noOp).Bootstrap shard
      (some tr)).unfulfilled = true ∧
    ((Bootstrapper.base s dbOpts Bootstrapper.noOp).Bootstrap shard (some tr)).result
      = some (mergeResults dbOpts [(s.ReadData shard (some tr)).1, none]) ∧
    seriesOf ((Bootstrapper.base s dbOpts Bootstrapper.noOp).Bootstrap shard (some tr)).result
      = seriesOf (s.ReadData shard (some tr)).1 := by
  have hres : ((Bootstrapper.base s dbOpts Bootstrapper.noOp).Bootstrap shard (some tr)).result
      = some (mergeResults dbOpts [(s.ReadData shard (some tr)).1, none]) := by
    rw [Bootstrap_base_result s dbOpts _ shard tr hne, hav, hU]
    rfl
  refine ⟨?_, hres, ?_⟩
  · rw [Bootstrap_base_unfulfilled s dbOpts _ shard tr hne, hav, hU,
      RangeList.RemoveRanges_self, mergeTimeRanges_pair_isEmpty]
    simp only [if_true, hU, Bool.true_and]
    rfl
  · rw [hres]
    exact NewShardResult_AddResult dbOpts (s.ReadData shard (some tr)).1

theorem C6_full_success_witness :
    IsEmpty ((Bootstrapper.base fullSource sampleOpts Bootstrapper.noOp).Bootstrap 3
      (some [⟨0, 10⟩, ⟨20, 30⟩])).unfulfilled = true ∧
    ((Bootstrapper.base fullSource sampleOpts Bootstrapper.noOp).Bootstrap 3
      (some [⟨0, 10⟩, ⟨20, 30⟩])).result
      = some (mergeResults sampleOpts
          [(fullSource.ReadData 3 (some [⟨0, 10⟩, ⟨20, 30⟩])).1, none]) ∧
    seriesOf ((Bootstrapper.base fullSource sampleOpts Bootstrapper.noOp).Bootstrap 3
      (some [⟨0, 10⟩, ⟨20, 30⟩])).result
      = seriesOf (fullSource.ReadData 3 (some [⟨0, 10⟩, ⟨20, 30⟩])).1 :=
  C6_full_success fullSource sampleOpts 3 [⟨0, 10⟩, ⟨20, 30⟩] rfl rfl rfl

/-- C7 fails as stated.  The well-behaved `idleSource` reports nothing
available for `[0, 10)`, and its `ReadData` is called all the same, with the nil
set.  The Source `eagerSource` also reports nothing available, and what its
read of the nil set returns ends up in the result and, through the fallback, in
the unfulfilled set, so that neither equals what
`next.Bootstrap(shard, targetRanges)` returns. -/
theorem C7_counterexample :
    IsEmpty (some [⟨0, 10⟩]) = false ∧
    IsEmpty (idleSource.GetAvailability 0 (some [⟨0, 10⟩])) = true ∧
    (⟨0, Op.readData, 0, none⟩ : Call) ∈
      ((Bootstrapper.base idleSource sampleOpts Bootstrapper.noOp).Bootstrap 0
        (some [⟨0, 10⟩])).calls ∧
    IsEmpty (eagerSource.GetAvailability 0 (some [⟨0, 10⟩])) = true ∧
    (⟨0, Op.readData, 0, none⟩ : Call) ∈
      ((Bootstrapper.base eagerSource sampleOpts Bootstrapper.noOp).Bootstrap 0
        (some [⟨0, 10⟩])).calls ∧
    seriesOf ((Bootstrapper.base eagerSource sampleOpts Bootstrapper.noOp).Bootstrap 0
        (some [⟨0, 10⟩])).result "cpu" = some [1, 2] ∧
    seriesOf (Bootstrapper.noOp.Bootstrap 0 (some [⟨0, 10⟩])).result "cpu" = none ∧
    ((Bootstrapper.base eagerSource sampleOpts Bootstrapper.noOp).Bootstrap 0
        (some [⟨0, 10⟩])).unfulfilled.covers 150 = true ∧
    (Bootstrapper.noOp.Bootstrap 0 (some [⟨0, 10⟩])).unfulfilled.covers 150 = false := by
  refine ⟨rfl, rfl, ?_, rfl, ?_, ?_, rfl, ?_, ?_⟩
  · decide
  · decide
  · rfl
  · decide
  · decide

/-- C7, amended: on a non-empty `targetRanges` of which the Source reports
nothing available, the node still calls `ReadData`, with that empty set,
whatever that read then returns: its own calls are `GetAvailability` and
`next.Bootstrap` with `targetRanges`, `ReadData` with the empty availability,
and the fallback call when the read left something.  When this read returns no
series and no leftover, the returned result has the series of, and the
returned unfulfilled set covers the same instants as (is empty exactly when,
and for a normalized collection is the same collection as) what
`next.Bootstrap(shard, targetRanges)` returns, and next is called once, with
`targetRanges`. -/
theorem C7_full_delegation (s : Source) (dbOpts : DatabaseOptions) (next : Bootstrapper)
    (shard : Nat) (tr : RangeList) (hne : IsEmpty (some tr) = false)
    (hav : IsEmpty (s.GetAvailability shard (some tr)) = true) :
    (⟨0, Op.readData, shard, s.GetAvailability shard (some tr)⟩ : Call)
      ∈ ((Bootstrapper.base s dbOpts next).Bootstrap shard (some tr)).calls ∧
    ownCalls ((Bootstrapper.base s dbOpts next).Bootstrap shard (some tr)).calls
      = [⟨0, Op.getAvailability, shard, some tr⟩,
          ⟨0, Op.nextBootstrap, shard, some tr⟩,
          ⟨0, Op.readData, shard, s.GetAvailability shard (some tr)⟩]
        ++ (if IsEmpty (s.ReadData shard (s.GetAvailability shard (some tr))).2 then []
            else
              [⟨0, Op.nextBootstrap, shard,
                  (s.ReadData shard (s.GetAvailability shard (some tr))).2⟩]) ∧
    (seriesOf (s.ReadData shard (s.GetAvailability shard (some tr))).1 = (fun _ => none) →
      IsEmpty (s.ReadData shard (s.GetAvailability shard (some tr))).2 = true →
      seriesOf ((Bootstrapper.base s dbOpts next).Bootstrap shard (some tr)).result
        = seriesOf (next.Bootstrap shard (some tr)).result ∧
      (∀ t, ((Bootstrapper.base s dbOpts next).Bootstrap shard (some tr)).unfulfilled.covers t
        = (next.Bootstrap shard (some tr)).unfulfilled.covers t) ∧
      IsEmpty ((Bootstrapper.base s dbOpts next).Bootstrap shard (some tr)).unfulfilled
        = IsEmpty (next.Bootstrap shard (some tr)).unfulfilled ∧
      (∀ l : RangeList, (next.Bootstrap shard (some tr)).unfulfilled = some l → l.Normalized →
        ((Bootstrapper.base s dbOpts next).Bootstrap shard (some tr)).unfulfilled = some l) ∧
      ownCalls ((Bootstrapper.base s dbOpts next).Bootstrap shard (some tr)).calls
        = [⟨0, Op.getAvailability, shard, some tr⟩,
            ⟨0, Op.nextBootstrap, shard, some tr⟩,
            ⟨0, Op.readData, shard, s.GetAvailability shard (some tr)⟩]) := by
  have hrem : tr.RemoveRanges (s.GetAvailability shard (some tr)) = tr :=
    RangeList.RemoveRanges_of_isEmpty tr _ hav
  refine ⟨?_, ?_, ?_⟩
  · rw [Bootstrap_base_calls s dbOpts next shard tr hne]
    exact List.mem_append_left _ (List.mem_append_right _ (List.mem_singleton.mpr rfl))
  · rw [Bootstrap_base_ownCalls s dbOpts next shard tr hne, hrem]
  · intro hD hU
    refine ⟨?_, ?_, ?_, ?_, ?_⟩
    · rw [Bootstrap_base_result s dbOpts next shard tr hne, hU, hrem]
      simp only [if_true]
      have h1 : (NewShardResult dbOpts).AddResult
          (s.ReadData shard (s.GetAvailability shard (some tr))).1 = NewShardResult dbOpts := by
        have hs := AddResult_series_of_none (NewShardResult dbOpts) _ hD
        have ho := AddResult_opts (NewShardResult dbOpts)
          (s.ReadData shard (s.GetAvailability shard (some tr))).1
        cases hx : (NewShardResult dbOpts).AddResult
          (s.ReadData shard (s.GetAvailability shard (some tr))).1 with
        | mk xo xs =>
          rw [hx] at hs ho
          simp only at hs ho
          rw [hs, ho]
      simp only [mergeResults, List.foldl_cons, List.foldl_nil, h1]
      exact NewShardResult_AddResult dbOpts _
    · intro t
      rw [Bootstrap_base_unfulfilled s dbOpts next shard tr hne, hU, hrem,
        mergeTimeRanges_pair_covers]
      simp only [if_true, Ranges.covers_of_isEmpty _ hU, Bool.false_or]
    · rw [Bootstrap_base_unfulfilled s dbOpts next shard tr hne, hU, hrem,
        mergeTimeRanges_pair_isEmpty]
      simp only [if_true, hU, Bool.true_and]
    · intro l hl hnl
      rw [Bootstrap_base_unfulfilled s dbOpts next shard tr hne, hU, hrem, hl]
      simp only [if_true, mergeTimeRanges_pair]
      rw [RangeList.AddRanges_of_isEmpty _ _ hU, RangeList.NewRanges_AddRanges l hnl]
    · rw [Bootstrap_base_ownCalls s dbOpts next shard tr hne, hU, hrem]
      simp

theorem C7_full_delegation_witness :
    (⟨0, Op.readData, 0, eagerSource.GetAvailability 0 (some [⟨0, 10⟩])⟩ : Call)
      ∈ ((Bootstrapper.base eagerSource sampleOpts Bootstrapper.noOp).Bootstrap 0
          (some [⟨0, 10⟩])).calls ∧
    ownCalls ((Bootstrapper.base eagerSource sampleOpts Bootstrapper.noOp).Bootstrap 0
        (some [⟨0, 10⟩])).calls
      = [⟨0, Op.getAvailability, 0, some [⟨0, 10⟩]⟩,
          ⟨0, Op.nextBootstrap, 0, some [⟨0, 10⟩]⟩,
          ⟨0, Op.readData, 0, none⟩,
          ⟨0, Op.nextBootstrap, 0, some [⟨100, 200⟩]⟩] ∧
    seriesOf ((Bootstrapper.base idleSource sampleOpts
        (Bootstrapper.base partialSource sampleOpts Bootstrapper.noOp)).Bootstrap 0
        (some [⟨0, 10⟩])).result
      = seriesOf ((Bootstrapper.base partialSource sampleOpts Bootstrapper.noOp).Bootstrap 0
        (some [⟨0, 10⟩])).result ∧
    ((Bootstrapper.base partialSource sampleOpts Bootstrapper.noOp).Bootstrap 0
        (some [⟨0, 10⟩])).unfulfilled = some [⟨5, 10⟩] ∧
    ((Bootstrapper.base idleSource sampleOpts
        (Bootstrapper.base partialSource sampleOpts Bootstrapper.noOp)).Bootstrap 0
        (some [⟨0, 10⟩])).unfulfilled = some [⟨5, 10⟩] ∧
    ownCalls ((Bootstrapper.base idleSource sampleOpts
        (Bootstrapper.base partialSource sampleOpts Bootstrapper.noOp)).Bootstrap 0
        (some [⟨0, 10⟩])).calls
      = [⟨0, Op.getAvailability, 0, some [⟨0, 10⟩]⟩,
          ⟨0, Op.nextBootstrap, 0, some [⟨0, 10⟩]⟩,
          ⟨0, Op.readData, 0, idleSource.GetAvailability 0 (some [⟨0, 10⟩])⟩] :=
  ⟨(C7_full_delegation eagerSource sampleOpts Bootstrapper.noOp 0 [⟨0, 10⟩] rfl rfl).1,
    (C7_full_delegation eagerSource sampleOpts Bootstrapper.noOp 0 [⟨0, 10⟩] rfl rfl).2.1,
    ((C7_full_delegation idleSource sampleOpts
      (Bootstrapper.base partialSource sampleOpts Bootstrapper.noOp) 0 [⟨0, 10⟩]
      rfl rfl).2.2 rfl rfl).1,
    by decide,
    ((C7_full_delegation idleSource sampleOpts
      (Bootstrapper.base partialSource sampleOpts Bootstrapper.noOp) 0 [⟨0, 10⟩]
      rfl rfl).2.2 rfl rfl).2.2.2.1 [⟨5, 10⟩] (by decide) (by decide),
    ((C7_full_delegation idleSource sampleOpts
      (Bootstrapper.base partialSource sampleOpts Bootstrapper.noOp) 0 [⟨0, 10⟩]
      rfl rfl).2.2 rfl rfl).2.2.2.2⟩

/-- C8 fails as stated: the Source `idleSource` reports nothing available for
`[0, 10)`, and its `ReadData` is then invoked with that empty (nil) set. -/
theorem C8_counterexample :
    (⟨0, Op.readData, 0, none⟩ : Call) ∈
      ((chain sampleOpts [idleSource]).Bootstrap 0 (some [⟨0, 10⟩])).calls ∧
    IsEmpty none = true := by
  refine ⟨?_, rfl⟩
  decide

/-- C8, amended: whatever bootstrapper `Bootstrap` is called on, and so along
any chain of base nodes, no Source is ever invoked through `GetAvailability`
with an empty range set; and every `ReadData` invocation is made on the Source
of its node with what that Source's `GetAvailability` answered to a non-empty
request of the same run, an answer that may be empty. -/
theorem C8_getAvailability_never_empty (b : Bootstrapper) (shard : Nat) (targetRanges : Ranges)
    (c : Call) (hc : c ∈ (b.Bootstrap shard targetRanges).calls) :
    (c.op = Op.getAvailability → IsEmpty c.ranges = false) ∧
    (c.op = Op.readData →
      ∃ s req, sourceAt b c.depth = some s ∧ IsEmpty req = false ∧
        (⟨c.depth, Op.getAvailability, c.shard, req⟩ : Call)
          ∈ (b.Bootstrap shard targetRanges).calls ∧
        c.ranges = s.GetAvailability c.shard req) := by
  induction b generalizing targetRanges c with
  | noOp => simp [Bootstrapper.Bootstrap] at hc
  | other run => simp [Bootstrapper.Bootstrap] at hc
  | base s dbOpts next ih =>
    cases targetRanges with
    | none =>
      rw [Bootstrap_base_of_isEmpty s dbOpts next shard none rfl] at hc
      simp at hc
    | some tr =>
      rcases IsEmpty_some_eq_false_or tr with he | he
      · rw [Bootstrap_base_of_isEmpty s dbOpts next shard (some tr) he] at hc
        simp at hc
      · have hsub : ∀ (req : Ranges) (d : Call), d ∈ (next.Bootstrap shard req).calls →
            (req = some (tr.RemoveRanges (s.GetAvailability shard (some tr))) ∨
              (IsEmpty (s.ReadData shard (s.GetAvailability shard (some tr))).2 = false ∧
                req = (s.ReadData shard (s.GetAvailability shard (some tr))).2)) →
            d.deeper ∈ ((Bootstrapper.base s dbOpts next).Bootstrap shard (some tr)).calls := by
          intro req d hd hreq
          rw [Bootstrap_base_calls s dbOpts next shard tr he]
          rcases hreq with rfl | ⟨hU, rfl⟩
          · simp only [List.mem_append, List.mem_map]
            exact Or.inl (Or.inl (Or.inr ⟨d, hd, rfl⟩))
          · rw [hU]
            simp only [Bool.false_eq_true, if_false, List.mem_append, List.mem_map]
            exact Or.inr (Or.inr ⟨d, hd, rfl⟩)
        have hdeep : ∀ (req : Ranges) (d : Call), d ∈ (next.Bootstrap shard req).calls →
            (req = some (tr.RemoveRanges (s.GetAvailability shard (some tr))) ∨
              (IsEmpty (s.ReadData shard (s.GetAvailability shard (some tr))).2 = false ∧
                req = (s.ReadData shard (s.GetAvailability shard (some tr))).2)) →
            (d.deeper.op = Op.getAvailability → IsEmpty d.deeper.ranges = false) ∧
            (d.deeper.op = Op.readData →
              ∃ s2 req2, sourceAt (Bootstrapper.base s dbOpts next) d.deeper.depth = some s2 ∧
                IsEmpty req2 = false ∧
                (⟨d.deeper.depth, Op.getAvailability, d.deeper.shard, req2⟩ : Call)
                  ∈ ((Bootstrapper.base s dbOpts next).Bootstrap shard (some tr)).calls ∧
                d.deeper.ranges = s2.GetAvailability d.deeper.shard req2) := by
          intro req d hd hreq
          obtain ⟨h1, h2⟩ := ih req d hd
          refine ⟨h1, fun hop => ?_⟩
          obtain ⟨s2, req2, hs2, hne2, hmem2, hr2⟩ := h2 hop
          exact ⟨s2, req2, hs2, hne2, hsub req _ hmem2 hreq, hr2⟩
        have hown : (⟨0, Op.getAvailability, shard, some tr⟩ : Call)
            ∈ ((Bootstrapper.base s dbOpts next).Bootstrap shard (some tr)).calls := by
          rw [Bootstrap_base_calls s dbOpts next shard tr he]
          simp
        have hmem := hc
        rw [Bootstrap_base_calls s dbOpts next shard tr he] at hmem
        cases hU : IsEmpty (s.ReadData shard (s.GetAvailability shard (some tr))).2
        · rw [hU] at hmem
          simp only [Bool.false_eq_true, if_false, List.mem_append, List.mem_cons,
            List.mem_singleton, List.not_mem_nil, or_false, List.mem_map] at hmem
          rcases hmem with (((hm | hm) | ⟨d, hd, rfl⟩) | hm) | hm | ⟨d, hd, rfl⟩
          · subst hm; exact ⟨fun _ => he, fun hop => by simp at hop⟩
          · subst hm; exact ⟨fun hop => by simp at hop, fun hop => by simp at hop⟩
          · exact hdeep _ d hd (Or.inl rfl)
          · subst hm
            exact ⟨fun hop => by simp at hop, fun _ => ⟨s, some tr, rfl, he, hown, rfl⟩⟩
          · subst hm; exact ⟨fun hop => by simp at hop, fun hop => by simp at hop⟩
          · exact hdeep _ d hd (Or.inr ⟨hU, rfl⟩)
        · rw [hU] at hmem
          simp only [if_true, List.append_nil, List.mem_append, List.mem_cons,
            List.mem_singleton, List.not_mem_nil, or_false, List.mem_map] at hmem
          rcases hmem with ((hm | hm) | ⟨d, hd, rfl⟩) | hm
          · subst hm; exact ⟨fun _ => he, fun hop => by simp at hop⟩
          · subst hm; exact ⟨fun hop => by simp at hop, fun hop => by simp at hop⟩
          · exact hdeep _ d hd (Or.inl rfl)
          · subst hm
            exact ⟨fun hop => by simp at hop, fun _ => ⟨s, some tr, rfl, he, hown, rfl⟩⟩

theorem C8_getAvailability_never_empty_witness :
    (⟨1, Op.getAvailability, 0, some [⟨5, 10⟩]⟩ : Call) ∈
      ((chain sampleOpts [partialSource, peerSource]).Bootstrap 0 (some [⟨0, 10⟩])).calls ∧
    IsEmpty (some [⟨5, 10⟩]) = false :=
  ⟨by decide,
    (C8_getAvailability_never_empty (chain sampleOpts [partialSource, peerSource]) 0
      (some [⟨0, 10⟩]) ⟨1, Op.getAvailability, 0, some [⟨5, 10⟩]⟩ (by decide)).1 rfl⟩

/-- C9: `NewBaseBootstrapper` with a nil next yields the node whose next is the
no-op terminal, the same node as when the no-op terminal is passed, so both
give the same `Bootstrap` for every shard and `targetRanges`; a non-nil next is
stored unchanged. -/
theorem C9_nil_next_is_noOp (s : Source) (dbOpts : DatabaseOptions) :
    NewBaseBootstrapper s dbOpts none = Bootstrapper.base s dbOpts Bootstrapper.noOp ∧
    (∀ shard targetRanges,
      (NewBaseBootstrapper s dbOpts none).Bootstrap shard targetRanges
        = (NewBaseBootstrapper s dbOpts (some Bootstrapper.noOp)).Bootstrap shard targetRanges) ∧
    (∀ next, NewBaseBootstrapper s dbOpts (some next) = Bootstrapper.base s dbOpts next) :=
  ⟨rfl, fun _ _ => rfl, fun _ => rfl⟩

/-- C10 fails as stated: the node wrapping the Source named `filesystem`
answers `"base"`, not the name of its Source. -/
theorem C10_counterexample :
    baseBootstrapper.String fullSource sampleOpts Bootstrapper.noOp = "base" ∧
    fullSource.name = "filesystem" ∧
    baseBootstrapper.String fullSource sampleOpts Bootstrapper.noOp ≠ fullSource.name := by
  refine ⟨rfl, rfl, ?_⟩
  decide

/-- C10, as the code has it: `String()` of a chain node returns the constant
`"base"`, whatever Source the node wraps. -/
theorem C10_String_is_base (s : Source) (dbOpts : DatabaseOptions) (next : Bootstrapper) :
    baseBootstrapper.String s dbOpts next = "base" := rfl

end M3
